import Mathlib

/-!
Verification of the PII anonymization engine
(`anonymization/pii_anonymizer.py`).

Shallow embedding of the engine's data model and operations:
the placeholder registry, the regex pattern detector (with a small
backtracking regex engine reproducing the Python `re` search order for
the five PII patterns), the NER span adapter, the span resolver
(`apply_spans`) and the document walkers for plain text, XML and JSON.
Machine strings are Lean `String`s (lists of characters); all detector
arithmetic is on `Nat` offsets, matching Python's half-open slices.
-/

namespace PiiAnon

/-- A replacement span `(start, end, replacement)` over a single unit of
text, exactly the tuples produced by `gather_regex_spans` /
`gather_ner_spans` in `pii_anonymizer.py` (the `end` offset is called
`stop` because `end` is a Lean keyword). Offsets are half-open. -/
structure Span where
  start : Nat
  stop : Nat
  repl : String
deriving DecidableEq

/-- Python slice `text[a:b]` on a character list. -/
def pySlice (t : List Char) (a b : Nat) : List Char :=
  (t.drop a).take (b - a)

/-- Deduplication loop of `apply_spans` (lines 128-133): a dict keyed on
exact `(start, end)` pairs, keeping the first replacement proposed for a
key and the first-insertion order of keys. -/
def dedupGo : List Span → List (Nat × Nat) → List Span
  | [], _ => []
  | sp :: rest, seen =>
    if (sp.start, sp.stop) ∈ seen then dedupGo rest seen
    else sp :: dedupGo rest ((sp.start, sp.stop) :: seen)

/-- The `normalized` dict of `apply_spans`, as its insertion-ordered item list. -/
def dedupSpans (spans : List Span) : List Span :=
  dedupGo spans []

/-- Insert a span after all spans of no greater start offset: the
building block of a stable sort by start offset, mirroring Python's
stable `sorted(..., key=lambda item: item[0][0])` (line 135). -/
def insertByStart (sp : Span) : List Span → List Span
  | [] => [sp]
  | t :: rest =>
    if t.start ≤ sp.start then t :: insertByStart sp rest
    else sp :: t :: rest

/-- Stable sort of spans ascending by start offset (line 135). -/
def sortSpans (spans : List Span) : List Span :=
  spans.foldl (fun acc sp => insertByStart sp acc) []

/-- The emission loop of `apply_spans` (lines 136-146): walk the sorted
spans with a cursor; a span starting before the cursor is skipped,
otherwise the untouched text up to its start, then its replacement, are
emitted and the cursor advances to its end; the tail of the text follows. -/
def applyGo (t : List Char) : List Span → Nat → List Char
  | [], cursor => t.drop cursor
  | sp :: rest, cursor =>
    if sp.start < cursor then applyGo t rest cursor
    else pySlice t cursor sp.start ++ sp.repl.data ++ applyGo t rest sp.stop

/-- Embedding of `apply_spans(text, spans)` (lines 123-146). -/
def applySpans (text : String) (spans : List Span) : String :=
  if spans = [] then text
  else ⟨applyGo text.data (sortSpans (dedupSpans spans)) 0⟩

/-- The sub-list of spans actually emitted by the loop of `apply_spans`
(those not skipped by the cursor test), with the cursor updates. -/
def winnerSpans : List Span → Nat → List Span
  | [], _ => []
  | sp :: rest, cursor =>
    if sp.start < cursor then winnerSpans rest cursor
    else sp :: winnerSpans rest sp.stop

/-- Reassembled output text of `apply_spans` expressed from the winning
spans alone: gap text, replacement, gap text, ..., final tail. -/
def assembleSpans (t : List Char) : List Span → Nat → List Char
  | [], cursor => t.drop cursor
  | sp :: rest, cursor =>
    pySlice t cursor sp.start ++ sp.repl.data ++ assembleSpans t rest sp.stop

theorem applyGo_eq_assemble (t : List Char) :
    ∀ (l : List Span) (c : Nat), applyGo t l c = assembleSpans t (winnerSpans l c) c := by
  intro l
  induction l with
  | nil => intro c; rfl
  | cons sp rest ih =>
    intro c
    by_cases h : sp.start < c
    · simp [applyGo, winnerSpans, h, ih]
    · simp [applyGo, winnerSpans, assembleSpans, h, ih]

theorem winnerSpans_start_ge (l : List Span) (c : Nat)
    (hwf : ∀ sp ∈ l, sp.start ≤ sp.stop) :
    ∀ sp ∈ winnerSpans l c, c ≤ sp.start := by
  induction l generalizing c with
  | nil => intro sp h; simp [winnerSpans] at h
  | cons hd rest ih =>
    intro sp hmem
    by_cases h : hd.start < c
    · simp only [winnerSpans, if_pos h] at hmem
      exact ih c (fun x hx => hwf x (List.mem_cons_of_mem _ hx)) sp hmem
    · simp only [winnerSpans, if_neg h, List.mem_cons] at hmem
      rcases hmem with rfl | hmem
      · omega
      · have h1 : hd.start ≤ hd.stop := hwf hd (List.mem_cons_self _ _)
        have h2 := ih hd.stop (fun x hx => hwf x (List.mem_cons_of_mem _ hx)) sp hmem
        omega

theorem winnerSpans_pairwise (l : List Span) (c : Nat)
    (hwf : ∀ sp ∈ l, sp.start ≤ sp.stop) :
    List.Pairwise (fun a b => a.stop ≤ b.start) (winnerSpans l c) := by
  induction l generalizing c with
  | nil => exact List.Pairwise.nil
  | cons hd rest ih =>
    by_cases h : hd.start < c
    · simpa [winnerSpans, h] using ih c (fun x hx => hwf x (List.mem_cons_of_mem _ hx))
    · simp only [winnerSpans, if_neg h]
      refine List.Pairwise.cons ?_ (ih hd.stop (fun x hx => hwf x (List.mem_cons_of_mem _ hx)))
      intro b hb
      exact winnerSpans_start_ge rest hd.stop (fun x hx => hwf x (List.mem_cons_of_mem _ hx)) b hb

theorem mem_insertByStart (sp x : Span) (l : List Span) :
    x ∈ insertByStart sp l ↔ x = sp ∨ x ∈ l := by
  induction l with
  | nil => simp [insertByStart]
  | cons hd rest ih =>
    by_cases h : hd.start ≤ sp.start
    · simp only [insertByStart, if_pos h, List.mem_cons, ih]
      tauto
    · simp only [insertByStart, if_neg h, List.mem_cons]

theorem mem_insertByStart_self (sp : Span) (l : List Span) :
    sp ∈ insertByStart sp l :=
  (mem_insertByStart sp sp l).mpr (Or.inl rfl)

theorem mem_sortSpans (x : Span) (l : List Span) :
    x ∈ sortSpans l ↔ x ∈ l := by
  have key : ∀ (l : List Span) (acc : List Span),
      (x ∈ l.foldl (fun acc sp => insertByStart sp acc) acc ↔ x ∈ acc ∨ x ∈ l) := by
    intro l
    induction l with
    | nil => intro acc; simp
    | cons hd rest ih =>
      intro acc
      rw [List.foldl_cons, ih, mem_insertByStart]
      simp only [List.mem_cons]
      tauto
  rw [sortSpans, key]
  simp

theorem mem_dedupSpans (x : Span) (l : List Span) :
    x ∈ dedupSpans l → x ∈ l := by
  have key : ∀ (l : List Span) (seen : List (Nat × Nat)), x ∈ dedupGo l seen → x ∈ l := by
    intro l
    induction l with
    | nil => intro seen h; simp [dedupGo] at h
    | cons hd rest ih =>
      intro seen h
      by_cases hk : (hd.start, hd.stop) ∈ seen
      · simp only [dedupGo, if_pos hk] at h
        exact List.mem_cons_of_mem _ (ih _ h)
      · simp only [dedupGo, if_neg hk, List.mem_cons] at h
        rcases h with rfl | h
        · exact List.mem_cons_self _ _
        · exact List.mem_cons_of_mem _ (ih _ h)
  exact key l []

/-! ### Decimal rendering

`PlaceholderManager.get` builds placeholders with Python's
`f"[{label}_{n}]"`, whose number part is the decimal rendering of `n`.
We use Lean's `Nat.repr` for it and prove it injective, going through a
structural recursion `decRepr` equal to the fuelled `Nat.toDigitsCore`. -/

/-- Decimal digit list of `n`, most significant first. -/
def decRepr (n : Nat) : List Char :=
  if _h : n < 10 then [Nat.digitChar n]
  else decRepr (n / 10) ++ [Nat.digitChar (n % 10)]
decreasing_by exact Nat.div_lt_self (by omega) (by omega)

theorem decRepr_ne_nil (n : Nat) : decRepr n ≠ [] := by
  rw [decRepr]
  by_cases h : n < 10 <;> simp [h]

theorem toDigitsCore_eq_decRepr (fuel n : Nat) (acc : List Char) (h : n < fuel) :
    Nat.toDigitsCore 10 fuel n acc = decRepr n ++ acc := by
  induction fuel generalizing n acc with
  | zero => omega
  | succ f ih =>
    rw [Nat.toDigitsCore]
    by_cases h10 : n < 10
    · have hdiv : n / 10 = 0 := Nat.div_eq_of_lt h10
      have hmod : n % 10 = n := Nat.mod_eq_of_lt h10
      simp [hdiv, hmod, decRepr, h10]
    · have hdiv : n / 10 ≠ 0 := by
        intro hc
        exact h10 (by omega)
      simp only [hdiv, if_false]
      rw [ih (n / 10) _ (by omega)]
      conv_rhs => rw [decRepr]
      rw [dif_neg h10, List.append_assoc]
      rfl

theorem repr_data_eq_decRepr (n : Nat) : (Nat.repr n).data = decRepr n := by
  rw [Nat.repr, Nat.toDigits, toDigitsCore_eq_decRepr (n + 1) n [] (by omega)]
  simp [List.asString]

theorem digitChar_inj_lt : ∀ x < 10, ∀ y < 10, Nat.digitChar x = Nat.digitChar y → x = y := by
  decide

theorem decRepr_injective : ∀ a b : Nat, decRepr a = decRepr b → a = b := by
  intro a
  induction a using Nat.strong_induction_on with
  | _ a ih =>
    intro b hab
    have hsplit : ∀ n : Nat,
        decRepr n = (if n < 10 then [] else decRepr (n / 10)) ++ [Nat.digitChar (n % 10)] := by
      intro n
      rw [decRepr]
      by_cases h : n < 10
      · simp [h, Nat.mod_eq_of_lt h]
      · simp [h]
    rw [hsplit a, hsplit b] at hab
    have hlast := List.append_inj_right' hab (by simp)
    have hinit := List.append_inj_left' hab (by simp)
    have hmod : a % 10 = b % 10 := by
      have := List.head_eq_of_cons_eq hlast
      exact digitChar_inj_lt (a % 10) (Nat.mod_lt _ (by omega)) (b % 10) (Nat.mod_lt _ (by omega)) this
    by_cases ha : a < 10 <;> by_cases hb : b < 10
    · omega
    · rw [if_pos ha, if_neg hb] at hinit
      exact absurd hinit.symm (decRepr_ne_nil (b / 10))
    · rw [if_neg ha, if_pos hb] at hinit
      exact absurd hinit (decRepr_ne_nil (a / 10))
    · rw [if_neg ha, if_neg hb] at hinit
      have hdiv : a / 10 = b / 10 :=
        ih (a / 10) (Nat.div_lt_self (by omega) (by omega)) (b / 10) hinit
      omega

theorem natRepr_injective : ∀ a b : Nat, Nat.repr a = Nat.repr b → a = b := by
  intro a b h
  apply decRepr_injective
  rw [← repr_data_eq_decRepr, ← repr_data_eq_decRepr, h]

/-! ### Placeholder registry (`PlaceholderManager`, lines 58-77) -/

/-- State of `PlaceholderManager`: `counters` models the `defaultdict(int)` of
per-label counters (an insertion-ordered association list whose absent
keys read as 0) and `lookup` the insertion-ordered dict from
`(label, value)` keys to placeholder strings. -/
structure PlaceholderManager where
  counters : List (String × Nat)
  lookup : List ((String × String) × String)
deriving DecidableEq

/-- Constructor `PlaceholderManager.__init__`. -/
def PlaceholderManager.empty : PlaceholderManager := ⟨[], []⟩

/-- Read `counters[label]` through the `defaultdict(int)` default 0. -/
def getCounter (cs : List (String × Nat)) (label : String) : Nat :=
  ((cs.find? (fun e => e.1 = label)).map (fun e => e.2)).getD 0

/-- Python `self.counters[label] += 1` on a `defaultdict(int)`: a first access
inserts the key with value 1, later accesses bump it in place. -/
def bumpCounter : List (String × Nat) → String → List (String × Nat)
  | [], label => [(label, 1)]
  | (k, n) :: rest, label =>
    if k = label then (k, n + 1) :: rest
    else (k, n) :: bumpCounter rest label

/-- Dict lookup `self.lookup.get(key)` on the association list. -/
def lookupFind (l : List ((String × String) × String)) (key : String × String) : Option String :=
  ((l.find? (fun e => e.1 = key)).map (fun e => e.2))

/-- The placeholder literal `f"[{label}_{n}]"` (line 73). -/
def mint (label : String) (n : Nat) : String :=
  "[" ++ label ++ "_" ++ Nat.repr n ++ "]"

/-- Method `PlaceholderManager.get(label, value)` (lines 69-74), returning the
placeholder and the updated registry state. -/
def PlaceholderManager.get (m : PlaceholderManager) (label value : String) :
    String × PlaceholderManager :=
  match lookupFind m.lookup (label, value) with
  | some p => (p, m)
  | none =>
    let cs := bumpCounter m.counters label
    let p := mint label (getCounter cs label)
    (p, ⟨cs, m.lookup ++ [((label, value), p)]⟩)

/-- Method `PlaceholderManager.items()` (lines 76-77): insertion-ordered pairs. -/
def PlaceholderManager.items (m : PlaceholderManager) :
    List ((String × String) × String) :=
  m.lookup

theorem mint_inj_num (label : String) (a b : Nat) (h : mint label a = mint label b) : a = b := by
  apply natRepr_injective
  have hd : (mint label a).data = (mint label b).data := by rw [h]
  simp only [mint, String.data_append] at hd
  have h1 := List.append_inj_left' hd (by simp)
  have h2 := List.append_cancel_left h1
  exact String.ext h2

/-- Registry states reachable from a fresh `PlaceholderManager()` by
`get` calls, i.e. the states that can occur inside one
document-processing call. -/
inductive Reachable : PlaceholderManager → Prop where
  | empty : Reachable PlaceholderManager.empty
  | step (m : PlaceholderManager) (label value : String) :
      Reachable m → Reachable (m.get label value).2

/-- Structural invariant of the registry: every stored placeholder is
`"[label_n]"` for a 1-based `n` bounded by that label's counter, and
distinct keys under the same label hold distinct placeholders. -/
def Inv (m : PlaceholderManager) : Prop :=
  (∀ e ∈ m.lookup, ∃ n, 1 ≤ n ∧ n ≤ getCounter m.counters e.1.1 ∧ e.2 = mint e.1.1 n) ∧
  (∀ e1 ∈ m.lookup, ∀ e2 ∈ m.lookup, e1.1.1 = e2.1.1 → e1.1 ≠ e2.1 → e1.2 ≠ e2.2)

theorem getCounter_bump_self (cs : List (String × Nat)) (label : String) :
    getCounter (bumpCounter cs label) label = getCounter cs label + 1 := by
  induction cs with
  | nil => simp [bumpCounter, getCounter, List.find?]
  | cons hd rest ih =>
    obtain ⟨k, n⟩ := hd
    by_cases hk : k = label
    · subst hk
      simp [bumpCounter, getCounter, List.find?]
    · simp only [bumpCounter, if_neg hk]
      simpa [getCounter, List.find?, hk] using ih

theorem getCounter_bump_other (cs : List (String × Nat)) (label other : String)
    (h : other ≠ label) :
    getCounter (bumpCounter cs label) other = getCounter cs other := by
  induction cs with
  | nil => simp [bumpCounter, getCounter, List.find?, Ne.symm h]
  | cons hd rest ih =>
    obtain ⟨k, n⟩ := hd
    by_cases hk : k = label
    · subst hk
      have hko : ¬(k = other) := fun hc => h (hc ▸ rfl)
      simp [bumpCounter, getCounter, List.find?, hko]
    · simp only [bumpCounter, if_neg hk]
      by_cases hko : k = other
      · subst hko
        simp [getCounter, List.find?]
      · simpa [getCounter, List.find?, hko] using ih

theorem getCounter_bump_ge (cs : List (String × Nat)) (label other : String) :
    getCounter cs other ≤ getCounter (bumpCounter cs label) other := by
  by_cases h : other = label
  · subst h
    rw [getCounter_bump_self]
    omega
  · rw [getCounter_bump_other cs label other h]

theorem get_of_found (m : PlaceholderManager) (label value p : String)
    (h : lookupFind m.lookup (label, value) = some p) :
    m.get label value = (p, m) := by
  rw [PlaceholderManager.get, h]

theorem get_of_not_found (m : PlaceholderManager) (label value : String)
    (h : lookupFind m.lookup (label, value) = none) :
    m.get label value =
      (mint label (getCounter m.counters label + 1),
       ⟨bumpCounter m.counters label,
        m.lookup ++ [((label, value), mint label (getCounter m.counters label + 1))]⟩) := by
  rw [PlaceholderManager.get, h]
  simp [getCounter_bump_self]

theorem lookupFind_eq_none_iff (l : List ((String × String) × String)) (key : String × String) :
    lookupFind l key = none ↔ ∀ e ∈ l, e.1 ≠ key := by
  simp only [lookupFind, Option.map_eq_none', List.find?_eq_none, decide_eq_true_eq]

theorem lookupFind_some_mem (l : List ((String × String) × String)) (key : String × String)
    (p : String) (h : lookupFind l key = some p) : (key, p) ∈ l := by
  simp only [lookupFind, Option.map_eq_some'] at h
  obtain ⟨e, he, hp⟩ := h
  have hkey : e.1 = key := by
    have := List.find?_some he
    simpa using this
  have hmem := List.mem_of_find?_eq_some he
  have : e = (key, p) := by
    obtain ⟨k, v⟩ := e
    simp only at hkey hp
    rw [hkey, hp]
  rwa [this] at hmem

theorem lookupFind_append_right (l1 l2 : List ((String × String) × String))
    (key : String × String) (h : lookupFind l1 key = none) :
    lookupFind (l1 ++ l2) key = lookupFind l2 key := by
  have hf : l1.find? (fun e => e.1 = key) = none := by
    simpa [lookupFind, Option.map_eq_none'] using h
  simp [lookupFind, List.find?_append, hf]

theorem Inv_empty : Inv PlaceholderManager.empty := by
  constructor
  · intro e he
    simp [PlaceholderManager.empty] at he
  · intro e1 he1
    simp [PlaceholderManager.empty] at he1

theorem Inv_get (m : PlaceholderManager) (label value : String) (hInv : Inv m) :
    Inv (m.get label value).2 := by
  obtain ⟨h1, h2⟩ := hInv
  cases hfind : lookupFind m.lookup (label, value) with
  | some p =>
    rw [get_of_found m label value p hfind]
    exact ⟨h1, h2⟩
  | none =>
    rw [get_of_not_found m label value hfind]
    have habsent : ∀ e ∈ m.lookup, e.1 ≠ (label, value) :=
      (lookupFind_eq_none_iff m.lookup (label, value)).mp hfind
    constructor
    · intro e he
      simp only [List.mem_append, List.mem_singleton] at he
      rcases he with he | rfl
      · obtain ⟨n, hn1, hn2, hn3⟩ := h1 e he
        exact ⟨n, hn1, le_trans hn2 (getCounter_bump_ge m.counters label e.1.1), hn3⟩
      · refine ⟨getCounter m.counters label + 1, by omega, ?_, rfl⟩
        rw [getCounter_bump_self]
    · intro e1 he1 e2 he2 hlab hkey
      simp only [List.mem_append, List.mem_singleton] at he1 he2
      rcases he1 with he1 | rfl <;> rcases he2 with he2 | rfl
      · exact h2 e1 he1 e2 he2 hlab hkey
      · obtain ⟨n, hn1, hn2, hn3⟩ := h1 e1 he1
        simp only at hlab
        rw [hlab] at hn2 hn3
        rw [hn3]
        simp only
        intro hc
        have := mint_inj_num label n (getCounter m.counters label + 1) hc
        omega
      · obtain ⟨n, hn1, hn2, hn3⟩ := h1 e2 he2
        simp only at hlab
        rw [← hlab] at hn2 hn3
        rw [hn3]
        simp only
        intro hc
        have := mint_inj_num label (getCounter m.counters label + 1) n hc
        omega
      · exact absurd rfl hkey

theorem Reachable.inv (m : PlaceholderManager) (h : Reachable m) : Inv m := by
  induction h with
  | empty => exact Inv_empty
  | step m label value _ ih => exact Inv_get m label value ih

theorem get_mem_lookup (m : PlaceholderManager) (label value : String) :
    ((label, value), (m.get label value).1) ∈ (m.get label value).2.lookup := by
  cases hfind : lookupFind m.lookup (label, value) with
  | some p =>
    rw [get_of_found m label value p hfind]
    exact lookupFind_some_mem m.lookup (label, value) p hfind
  | none =>
    rw [get_of_not_found m label value hfind]
    simp

theorem get_idem (m : PlaceholderManager) (label value : String) :
    (m.get label value).2.get label value = ((m.get label value).1, (m.get label value).2) := by
  cases hfind : lookupFind m.lookup (label, value) with
  | some p =>
    rw [get_of_found m label value p hfind]
    exact get_of_found m label value p hfind
  | none =>
    rw [get_of_not_found m label value hfind]
    apply get_of_found
    rw [lookupFind_append_right _ _ _ hfind]
    simp [lookupFind, List.find?]

/-! ### Regex engine

A small backtracking matcher reproducing the search order of Python's
`re` for the constructs used by `PII_REGEXES`: character classes,
concatenation, alternation, greedy counted repetition, negative
lookahead and the word boundary `\b`.  `mrun` returns every end
position a subexpression can reach from a position, in the engine's
backtracking priority order, so the head of the list at the whole
pattern is exactly Python's match.  The phone pattern's group
`([- ])...\1` is expanded into the equivalent two-way alternation over
the concrete separator, so no capture state is needed.  Character
classes such as `\d`, `\w` and `\s` are modelled at their ASCII
meaning, which is exact for the texts the engine is applied to here. -/

inductive RE where
  | eps
  | cls (p : Char → Bool)
  | seq (a b : RE)
  | alt (a b : RE)
  | rep (r : RE) (lo : Nat) (hi : Option Nat)
  | nlk (r : RE)
  | wb
deriving Inhabited

/-- ASCII `\w`: letters, digits, underscore. -/
def isWordChar (c : Char) : Bool :=
  c.isAlphanum || c = '_'

/-- Whether the character before/at position `i` is a word character;
out-of-range counts as non-word. -/
def wordAt (t : List Char) (i : Nat) : Bool :=
  match t[i]? with
  | some c => isWordChar c
  | none => false

/-- Zero-width `\b`: a word boundary at position `i` of `t`. -/
def wordBoundary (t : List Char) (i : Nat) : Bool :=
  (if i = 0 then false else wordAt t (i - 1)) != wordAt t i

/-- One fewer allowed repetition: decrement an optional upper bound. -/
def decHi : Option Nat → Option Nat
  | none => none
  | some k => some (k - 1)

/-- All end positions reachable by matching `re` at position `i` of
`t`, in backtracking priority order (first element = Python's choice).
Greedy repetition explores more iterations first; each further
iteration must consume at least one character (every repetition body in
`PII_REGEXES` consumes at least one).  `fuel` decreases at every
recursive call so the function is structural; `reMatch` supplies fuel
ample for the five PII patterns, whose call depth is bounded by the
text length times the pattern size. -/
def mrun (t : List Char) : Nat → RE → Nat → List Nat
  | 0, _, _ => []
  | _ + 1, .eps, i => [i]
  | _ + 1, .cls p, i =>
    match t[i]? with
    | some c => if p c then [i + 1] else []
    | none => []
  | fuel + 1, .seq a b, i => (mrun t fuel a i).flatMap (mrun t fuel b)
  | fuel + 1, .alt a b, i => mrun t fuel a i ++ mrun t fuel b i
  | fuel + 1, .nlk r, i => if mrun t fuel r i = [] then [i] else []
  | _ + 1, .wb, i => if wordBoundary t i then [i] else []
  | fuel + 1, .rep r lo hi, i =>
    match lo, hi with
    | 0, some 0 => [i]
    | 0, _ =>
      ((mrun t fuel r i).filter (fun j => i < j)).flatMap
        (fun j => mrun t fuel (.rep r 0 (decHi hi)) j) ++ [i]
    | _ + 1, some 0 => []
    | lo' + 1, _ =>
      ((mrun t fuel r i).filter (fun j => i < j)).flatMap
        (fun j => mrun t fuel (.rep r lo' (decHi hi)) j)

/-- Node count of a pattern, used to size the matcher's fuel. -/
def reSize : RE → Nat
  | .eps => 1
  | .cls _ => 1
  | .wb => 1
  | .seq a b => reSize a + reSize b + 1
  | .alt a b => reSize a + reSize b + 1
  | .rep r _ _ => reSize r + 1
  | .nlk r => reSize r + 1

/-- Python `pattern.match` at a fixed position: Python's chosen end, if any. -/
def reMatch (t : List Char) (re : RE) (i : Nat) : Option Nat :=
  (mrun t ((t.length + 2) * (reSize re + 2)) re i).head?

/-- Python `pattern.finditer(text)` scanning loop: try each start position
left to right, emit the match found there and resume at its end. -/
def finditerGo (t : List Char) (re : RE) : Nat → Nat → List (Nat × Nat)
  | _, 0 => []
  | pos, fuel + 1 =>
    if pos > t.length then []
    else
      match reMatch t re pos with
      | some e =>
        if pos < e then (pos, e) :: finditerGo t re e fuel
        else (pos, e) :: finditerGo t re (pos + 1) fuel
      | none => finditerGo t re (pos + 1) fuel

/-- Python `pattern.finditer(text)`: the `(start, end)` spans of all
non-overlapping matches, leftmost first. -/
def finditer (t : List Char) (re : RE) : List (Nat × Nat) :=
  finditerGo t re 0 (t.length + 2)

/-- Single character. -/
def chr (c : Char) : RE := .cls (fun x => x = c)

/-- ASCII `\d`. -/
def reDigit : RE := .cls Char.isDigit

/-- Counted repetition `r{n}`. -/
def reExactly (r : RE) (n : Nat) : RE := .rep r n (some n)

/-- Greedy option `r?`. -/
def reOpt (r : RE) : RE := .rep r 0 (some 1)

/-- Concatenation of a list of pieces. -/
def seqs (rs : List RE) : RE := rs.foldr RE.seq .eps

/-- ASCII `\s`. -/
def isSpaceChar (c : Char) : Bool :=
  c = ' ' || c = '\t' || c = '\n' || c = '\r' || c = '\x0b' || c = '\x0c'

/-- The `"SSN"` pattern: `\b\d{3}-\d{2}-\d{4}\b`. -/
def ssnRE : RE :=
  seqs [.wb, reExactly reDigit 3, chr '-', reExactly reDigit 2, chr '-',
        reExactly reDigit 4, .wb]

/-- The `"CREDIT_CARD"` pattern: `\b(?:\d[ -]?){13,16}\b`. -/
def creditCardRE : RE :=
  seqs [.wb, .rep (.seq reDigit (reOpt (.alt (chr ' ') (chr '-')))) 13 (some 16), .wb]

/-- The `"EMAIL"` pattern:
`\b[a-zA-Z0-9._%+-]+@[a-zA-Z0-9.-]+\.[a-zA-Z]{2,}\b`. -/
def emailRE : RE :=
  seqs [.wb,
        .rep (.cls (fun c => c.isAlphanum || c = '.' || c = '_' || c = '%' || c = '+' || c = '-')) 1 none,
        chr '@',
        .rep (.cls (fun c => c.isAlphanum || c = '.' || c = '-')) 1 none,
        chr '.',
        .rep (.cls Char.isAlpha) 2 none,
        .wb]

/-- Body of the phone pattern's first lookahead for a fixed separator:
`\d{4}X\d{4}X\d{4}X\d{4}\b`. -/
def sep16 (c : Char) : RE :=
  seqs [reExactly reDigit 4, chr c, reExactly reDigit 4, chr c,
        reExactly reDigit 4, chr c, reExactly reDigit 4, .wb]

/-- The `"PHONE"` pattern:
`\b(?!\d{4}([- ])\d{4}\1\d{4}\1\d{4}\b)(?!\d{15,16}\b)(?:\+?\d{1,3}[-\s]?)?(?:\(?\d{2,4}\)?[-\s]?){2,3}\d{3,4}\b`;
the backreferenced group `([- ])...\1` is expanded over its two
possible separators. -/
def phoneRE : RE :=
  seqs [.wb,
        .nlk (.alt (sep16 '-') (sep16 ' ')),
        .nlk (seqs [.rep reDigit 15 (some 16), .wb]),
        reOpt (seqs [reOpt (chr '+'), .rep reDigit 1 (some 3),
                     reOpt (.cls (fun c => c = '-' || isSpaceChar c))]),
        .rep (seqs [reOpt (chr '('), .rep reDigit 2 (some 4), reOpt (chr ')'),
                    reOpt (.cls (fun c => c = '-' || isSpaceChar c))]) 2 (some 3),
        .rep reDigit 3 (some 4),
        .wb]

/-- The `"DOB"` pattern: `\b\d{4}-\d{2}-\d{2}\b`. -/
def dobRE : RE :=
  seqs [.wb, reExactly reDigit 4, chr '-', reExactly reDigit 2, chr '-',
        reExactly reDigit 2, .wb]

/-- The dict `PII_REGEXES` (lines 39-47): the five rules in declaration order of
the Python dict, which iterates in insertion order. -/
def piiRegexes : List (String × RE) :=
  [("SSN", ssnRE), ("CREDIT_CARD", creditCardRE), ("EMAIL", emailRE),
   ("PHONE", phoneRE), ("DOB", dobRE)]

/-! ### Detectors and the text walker -/

/-- Python `sum(ch.isdigit() for ch in value)` at its ASCII meaning. -/
def digitCount (s : String) : Nat :=
  s.data.countP Char.isDigit

/-- The inner loop of `gather_regex_spans` (lines 95-106) for one rule:
for each match, skip it when it is fully contained in an already
occupied region; for `PHONE` also skip when its digit count is 12 or
more; otherwise mint a placeholder and record span and region. -/
def processMatches (text : String) (label : String) :
    List (Nat × Nat) → List Span → List (Nat × Nat) → PlaceholderManager →
    List Span × List (Nat × Nat) × PlaceholderManager
  | [], spans, occupied, m => (spans, occupied, m)
  | (s, e) :: rest, spans, occupied, m =>
    if occupied.any (fun oc => s ≥ oc.1 && e ≤ oc.2) then
      processMatches text label rest spans occupied m
    else if label = "PHONE" && digitCount ⟨pySlice text.data s e⟩ ≥ 12 then
      processMatches text label rest spans occupied m
    else
      processMatches text label rest
        (spans ++ [⟨s, e, (m.get label ⟨pySlice text.data s e⟩).1⟩])
        (occupied ++ [(s, e)])
        (m.get label ⟨pySlice text.data s e⟩).2

/-- The outer loop of `gather_regex_spans` (line 94): rules in the
declaration order of `PII_REGEXES`, sharing `spans` and `occupied`. -/
def gatherRules (text : String) :
    List (String × RE) → List Span → List (Nat × Nat) → PlaceholderManager →
    List Span × List (Nat × Nat) × PlaceholderManager
  | [], spans, occupied, m => (spans, occupied, m)
  | (label, re) :: rest, spans, occupied, m =>
    let st := processMatches text label (finditer text.data re) spans occupied m
    gatherRules text rest st.1 st.2.1 st.2.2

/-- Embedding of `gather_regex_spans(text, manager)` (lines 91-107). -/
def gatherRegexSpans (text : String) (m : PlaceholderManager) :
    List Span × PlaceholderManager :=
  let st := gatherRules text piiRegexes [] [] m
  (st.1, st.2.2)

/-- One entity of the external NER capability: the `entity_group`
label and the character offsets into the text passed in. -/
structure NerEntity where
  entityGroup : String
  start : Nat
  stop : Nat

/-- The injected entity-recognition capability (the spec's
`recognize(text)`), assumed a deterministic function of the text. -/
def Ner : Type := String → List NerEntity

/-- Python `str.upper()` at its ASCII meaning (the entity labels passed
through it here are ASCII). -/
def pyUpper (s : String) : String :=
  ⟨s.data.map (fun c => if 'a' ≤ c && c ≤ 'z' then Char.ofNat (c.toNat - 32) else c)⟩

/-- The table `LABEL_MAP` (lines 50-55). -/
def labelMapFind (raw : String) : Option String :=
  ([("PER", "PERSON"), ("ORG", "ORGANIZATION"), ("LOC", "LOCATION"),
    ("MISC", "MISC")].find? (fun e => e.1 = raw)).map (fun e => e.2)

/-- Python `LABEL_MAP.get(raw_label, raw_label or "ENTITY")` on the uppercased
raw label (line 114). -/
def normalizeLabel (raw : String) : String :=
  (labelMapFind raw).getD (if raw = "" then "ENTITY" else raw)

/-- Embedding of `gather_ner_spans(text, manager, ner_pipeline)` (lines 110-120). -/
def gatherNerSpans (text : String) (m : PlaceholderManager) (ner : Ner) :
    List Span × PlaceholderManager :=
  (ner text).foldl
    (fun st ent =>
      let label := normalizeLabel (pyUpper ent.entityGroup)
      let value : String := ⟨pySlice text.data ent.start ent.stop⟩
      let pm := st.2.get label value
      (st.1 ++ [⟨ent.start, ent.stop, pm.1⟩], pm.2))
    ([], m)

/-- Embedding of `anonymize_text(text, manager, ner_pipeline)` (lines 149-152). -/
def anonymizeText (text : String) (m : PlaceholderManager) (ner : Ner) :
    String × PlaceholderManager :=
  let rg := gatherRegexSpans text m
  let ns := gatherNerSpans text rg.2 ner
  (applySpans text (rg.1 ++ ns.1), ns.2)

/-! ### XML walker -/

/-- An `xml.etree.ElementTree` element: tag, attributes, direct text,
tail text (the text after the closing tag, before the next sibling)
and child elements. -/
inductive XmlElem where
  | mk (tag : String) (attrs : List (String × String)) (text : Option String)
      (tail : Option String) (children : List XmlElem)

def XmlElem.tag : XmlElem → String
  | .mk g _ _ _ _ => g

def XmlElem.attrs : XmlElem → List (String × String)
  | .mk _ a _ _ _ => a

def XmlElem.text : XmlElem → Option String
  | .mk _ _ t _ _ => t

def XmlElem.tail : XmlElem → Option String
  | .mk _ _ _ l _ => l

def XmlElem.children : XmlElem → List XmlElem
  | .mk _ _ _ _ c => c

/-- Python truthiness of `node.text` / `node.tail`: `None` and the
empty string are falsy, so such a field is left untouched. -/
def anonymizeTextField (field : Option String) (m : PlaceholderManager) (ner : Ner) :
    Option String × PlaceholderManager :=
  match field with
  | none => (none, m)
  | some t =>
    if t = "" then (some t, m)
    else
      let r := anonymizeText t m ner
      (some r.1, r.2)

mutual

/-- Embedding of `anonymize_xml_element(element, manager, ner_pipeline)` (lines
155-160): `element.iter()` yields a node before its descendants, and
each visited node has its `text` and then its `tail` anonymized as two
separate units against the shared registry. -/
def anonymizeXmlElem (e : XmlElem) (m : PlaceholderManager) (ner : Ner) :
    XmlElem × PlaceholderManager :=
  match e with
  | .mk tag attrs text tail children =>
    let rt := anonymizeTextField text m ner
    let rl := anonymizeTextField tail rt.2 ner
    let rc := anonymizeXmlList children rl.2 ner
    (.mk tag attrs rt.1 rl.1 rc.1, rc.2)

def anonymizeXmlList (es : List XmlElem) (m : PlaceholderManager) (ner : Ner) :
    List XmlElem × PlaceholderManager :=
  match es with
  | [] => ([], m)
  | e :: rest =>
    let r := anonymizeXmlElem e m ner
    let rs := anonymizeXmlList rest r.2 ner
    (r.1 :: rs.1, rs.2)

end

/-- Escaping in the style of `xml.sax.saxutils` used by `ElementTree` for text
nodes: `&`, `<`, `>`. -/
def xmlEscapeText (s : String) : String :=
  ⟨s.data.flatMap (fun c =>
    if c = '&' then "&amp;".data
    else if c = '<' then "&lt;".data
    else if c = '>' then "&gt;".data
    else [c])⟩

/-- Attribute-value escaping of `ElementTree`: `&`, `<`, `>`, `"`. -/
def xmlEscapeAttr (s : String) : String :=
  ⟨s.data.flatMap (fun c =>
    if c = '&' then "&amp;".data
    else if c = '<' then "&lt;".data
    else if c = '>' then "&gt;".data
    else if c = '"' then "&quot;".data
    else [c])⟩

mutual

/-- Embedding of `ET.tostring(element, encoding="unicode")`: serialize one element
(attributes in order, short form `<tag />` when there is neither text
nor children) followed by its tail text. -/
def serializeXml (e : XmlElem) : String :=
  match e with
  | .mk tag attrs text tail children =>
    let attrStr := String.join (attrs.map (fun kv =>
      " " ++ kv.1 ++ "=\"" ++ xmlEscapeAttr kv.2 ++ "\""))
    let tailStr := (tail.map xmlEscapeText).getD ""
    match text, children with
    | none, [] => "<" ++ tag ++ attrStr ++ " />" ++ tailStr
    | _, _ =>
      "<" ++ tag ++ attrStr ++ ">" ++ (text.map xmlEscapeText).getD "" ++
        serializeXmlList children ++ "</" ++ tag ++ ">" ++ tailStr

def serializeXmlList (es : List XmlElem) : String :=
  match es with
  | [] => ""
  | e :: rest => serializeXml e ++ serializeXmlList rest

end

/-! ### JSON walker -/

/-- A parsed JSON value as `json.loads` produces it: strings, numbers
(modelled as integers, which covers every number in the verified
inputs), booleans, null, arrays and insertion-ordered objects. -/
inductive Json where
  | str (s : String)
  | num (n : Int)
  | bool (b : Bool)
  | null
  | arr (items : List Json)
  | obj (entries : List (String × Json))

mutual

/-- Embedding of `anonymize_json_value(value, manager, ner_pipeline)` (lines
177-184): strings are anonymized, lists and dicts rebuilt recursively
in order, every other value returned unchanged. -/
def anonymizeJsonValue (v : Json) (m : PlaceholderManager) (ner : Ner) :
    Json × PlaceholderManager :=
  match v with
  | .str s =>
    let r := anonymizeText s m ner
    (.str r.1, r.2)
  | .arr items =>
    let r := anonymizeJsonList items m ner
    (.arr r.1, r.2)
  | .obj entries =>
    let r := anonymizeJsonObj entries m ner
    (.obj r.1, r.2)
  | v => (v, m)

def anonymizeJsonList (vs : List Json) (m : PlaceholderManager) (ner : Ner) :
    List Json × PlaceholderManager :=
  match vs with
  | [] => ([], m)
  | v :: rest =>
    let r := anonymizeJsonValue v m ner
    let rs := anonymizeJsonList rest r.2 ner
    (r.1 :: rs.1, rs.2)

def anonymizeJsonObj (es : List (String × Json)) (m : PlaceholderManager) (ner : Ner) :
    List (String × Json) × PlaceholderManager :=
  match es with
  | [] => ([], m)
  | (k, v) :: rest =>
    let r := anonymizeJsonValue v m ner
    let rs := anonymizeJsonObj rest r.2 ner
    ((k, r.1) :: rs.1, rs.2)

end

/-! ### JSON serialization: `json.dumps(value, indent=4)` -/

/-- Four hex digits, lowercase, as `json.dumps` writes `\uXXXX`. -/
def hex4 (n : Nat) : List Char :=
  [Nat.digitChar (n / 4096 % 16), Nat.digitChar (n / 256 % 16),
   Nat.digitChar (n / 16 % 16), Nat.digitChar (n % 16)]

/-- Escaping of one character inside a JSON string literal, with the
default `ensure_ascii=True`: the short escapes, `\uXXXX` for other
control or non-ASCII characters, surrogate pairs beyond the BMP. -/
def jsonEscapeChar (c : Char) : List Char :=
  if c = '"' then ['\\', '"']
  else if c = '\\' then ['\\', '\\']
  else if c = '\n' then ['\\', 'n']
  else if c = '\r' then ['\\', 'r']
  else if c = '\t' then ['\\', 't']
  else if c = '\x08' then ['\\', 'b']
  else if c = '\x0c' then ['\\', 'f']
  else if c.toNat < 32 then '\\' :: 'u' :: hex4 c.toNat
  else if c.toNat ≤ 126 then [c]
  else if c.toNat < 65536 then '\\' :: 'u' :: hex4 c.toNat
  else
    ('\\' :: 'u' :: hex4 (55296 + (c.toNat - 65536) / 1024)) ++
      ('\\' :: 'u' :: hex4 (56320 + (c.toNat - 65536) % 1024))

/-- A JSON string literal with quotes and escapes. -/
def jsonQuote (s : String) : String :=
  ⟨'"' :: s.data.flatMap jsonEscapeChar ++ ['"']⟩

/-- Python's decimal rendering of an `int`. -/
def intRepr (n : Int) : String :=
  if n < 0 then "-" ++ Nat.repr n.natAbs else Nat.repr n.natAbs

/-- Padding for `indent=4` at a nesting level. -/
def indentPad (level : Nat) : String :=
  ⟨List.replicate (4 * level) ' '⟩

mutual

/-- Embedding of `json.dumps(value, indent=4)` at a nesting level: containers are
spread over lines with 4-space indentation, the item separator is a
comma plus newline, the key separator is `": "`; empty containers stay
on one line. -/
def dumpsInd : Json → Nat → String
  | .str s, _ => jsonQuote s
  | .num n, _ => intRepr n
  | .bool true, _ => "true"
  | .bool false, _ => "false"
  | .null, _ => "null"
  | .arr [], _ => "[]"
  | .arr (v :: vs), level =>
    "[\n" ++ indentPad (level + 1) ++ dumpsInd v (level + 1) ++
      dumpsItems vs (level + 1) ++ "\n" ++ indentPad level ++ "]"
  | .obj [], _ => "\x7b\x7d"
  | .obj (e :: es), level =>
    "\x7b\n" ++ indentPad (level + 1) ++ jsonQuote e.1 ++ ": " ++ dumpsInd e.2 (level + 1) ++
      dumpsEntries es (level + 1) ++ "\n" ++ indentPad level ++ "\x7d"

def dumpsItems : List Json → Nat → String
  | [], _ => ""
  | v :: vs, level =>
    ",\n" ++ indentPad level ++ dumpsInd v level ++ dumpsItems vs level

def dumpsEntries : List (String × Json) → Nat → String
  | [], _ => ""
  | e :: es, level =>
    ",\n" ++ indentPad level ++ jsonQuote e.1 ++ ": " ++ dumpsInd e.2 level ++
      dumpsEntries es level

end

/-- Embedding of `json.dumps(cleaned, indent=4)` (line 190). -/
def dumpsIndent4 (v : Json) : String :=
  dumpsInd v 0

/-! ### Document entry point (`anonymize_document`, lines 203-225) -/

/-- The parse exceptions that can escape `anonymize_document`, named by
the offending content type: `xml.etree.ElementTree.ParseError` from
`ET.fromstring`, `json.JSONDecodeError` from `json.loads`. -/
inductive ParseFailure where
  | xml
  | json
deriving DecidableEq

/-- Embedding of `anonymize_xml_string(xml_text, manager, ner_pipeline)` (lines
163-166), over an abstract `ET.fromstring`; a parse error propagates. -/
def anonymizeXmlString (parseXml : String → Except Unit XmlElem) (xmlText : String)
    (m : PlaceholderManager) (ner : Ner) : Except ParseFailure (String × PlaceholderManager) :=
  match parseXml xmlText with
  | .error _ => .error .xml
  | .ok root =>
    let r := anonymizeXmlElem root m ner
    .ok (serializeXml r.1, r.2)

/-- Embedding of `anonymize_json_string(json_text, manager, ner_pipeline)` (lines
187-190), over an abstract `json.loads`; a parse error propagates. -/
def anonymizeJsonString (parseJson : String → Except Unit Json) (jsonText : String)
    (m : PlaceholderManager) (ner : Ner) : Except ParseFailure (String × PlaceholderManager) :=
  match parseJson jsonText with
  | .error _ => .error .json
  | .ok data =>
    let r := anonymizeJsonValue data m ner
    .ok (dumpsIndent4 r.1, r.2)

/-- Embedding of `anonymize_document(content, content_type)` (lines 203-225): a
fresh `PlaceholderManager` per call, then the walker selected by the
content type; the result pairs the anonymized text with the registry.
The external parsing and entity-recognition capabilities are explicit
arguments. -/
def anonymizeDocument (parseXml : String → Except Unit XmlElem)
    (parseJson : String → Except Unit Json) (ner : Ner)
    (content : String) (contentType : String) :
    Except ParseFailure (String × PlaceholderManager) :=
  let m := PlaceholderManager.empty
  if contentType = "xml" then
    anonymizeXmlString parseXml content m ner
  else if contentType = "json" then
    anonymizeJsonString parseJson content m ner
  else
    let r := anonymizeText content m ner
    .ok (r.1, r.2)

/-! ### Claim theorems -/

theorem pairwise_winner_not_overlap (l : List Span) (c : Nat)
    (hwf : ∀ sp ∈ l, sp.start ≤ sp.stop) :
    ∀ a ∈ winnerSpans l c, ∀ b ∈ winnerSpans l c,
      a.start < b.start → b.start < a.stop → False := by
  have hp := winnerSpans_pairwise l c hwf
  have hs : ∀ a ∈ winnerSpans l c, ∀ b ∈ winnerSpans l c, a ≠ b →
      a.stop ≤ b.start ∨ b.stop ≤ a.start := by
    have hsym : Symmetric (fun a b : Span => a.stop ≤ b.start ∨ b.stop ≤ a.start) := by
      intro a b h
      tauto
    have hp2 : List.Pairwise (fun a b : Span => a.stop ≤ b.start ∨ b.stop ≤ a.start)
        (winnerSpans l c) := hp.imp (fun h => Or.inl h)
    intro a ha b hb hab
    exact hp2.forall hsym ha hb hab
  intro a ha b hb h1 h2
  have hwfb : b.start ≤ b.stop := by
    have := winnerSpans_start_ge l c hwf
    have hmem : b ∈ l := by
      clear hp hs h1 h2 ha a this
      induction l generalizing c with
      | nil => simp [winnerSpans] at hb
      | cons hd rest ih =>
        by_cases hc : hd.start < c
        · simp only [winnerSpans, if_pos hc] at hb
          exact List.mem_cons_of_mem _ (ih c (fun x hx => hwf x (List.mem_cons_of_mem _ hx)) hb)
        · simp only [winnerSpans, if_neg hc, List.mem_cons] at hb
          rcases hb with rfl | hb
          · exact List.mem_cons_self _ _
          · exact List.mem_cons_of_mem _
              (ih hd.stop (fun x hx => hwf x (List.mem_cons_of_mem _ hx)) hb)
    exact hwf b hmem
  have hne : a ≠ b := by
    intro hc
    subst hc
    omega
  rcases hs a ha b hb hne with h | h <;> omega

/-- C1: `apply_spans` performs a first-claimed-wins merge: it
deduplicates exact `(start, end)` keys, sorts ascending by start, skips
any span starting before the cursor left by a previously emitted span,
and rebuilds the text as untouched gaps plus the winning replacements;
the emitted (winner) spans are pairwise non-overlapping, and no
later-starting span overlapping an emitted earlier-starting span is
ever emitted. -/
theorem apply_spans_first_claimed_wins (text : String) (spans : List Span)
    (hwf : ∀ sp ∈ spans, sp.start < sp.stop) :
    applySpans text spans =
      ⟨assembleSpans text.data (winnerSpans (sortSpans (dedupSpans spans)) 0) 0⟩ ∧
    List.Pairwise (fun a b => a.stop ≤ b.start)
      (winnerSpans (sortSpans (dedupSpans spans)) 0) ∧
    (∀ a ∈ winnerSpans (sortSpans (dedupSpans spans)) 0,
     ∀ b ∈ winnerSpans (sortSpans (dedupSpans spans)) 0,
       a.start < b.start → b.start < a.stop → False) := by
  have hwf2 : ∀ sp ∈ sortSpans (dedupSpans spans), sp.start ≤ sp.stop := by
    intro sp hsp
    have := hwf sp (mem_dedupSpans sp spans ((mem_sortSpans sp (dedupSpans spans)).mp hsp))
    omega
  refine ⟨?_, winnerSpans_pairwise _ 0 hwf2, pairwise_winner_not_overlap _ 0 hwf2⟩
  by_cases hnil : spans = []
  · subst hnil
    simp [applySpans, dedupSpans, dedupGo, sortSpans, winnerSpans, assembleSpans]
  · rw [applySpans, if_neg hnil, applyGo_eq_assemble]

theorem apply_spans_first_claimed_wins_witness :
    (∀ sp ∈ [Span.mk 1 3 "X", Span.mk 2 5 "Y"], sp.start < sp.stop) ∧
    (applySpans "abcdef" [Span.mk 1 3 "X", Span.mk 2 5 "Y"] =
        ⟨assembleSpans "abcdef".data
          (winnerSpans (sortSpans (dedupSpans [Span.mk 1 3 "X", Span.mk 2 5 "Y"])) 0) 0⟩ ∧
      List.Pairwise (fun a b => a.stop ≤ b.start)
        (winnerSpans (sortSpans (dedupSpans [Span.mk 1 3 "X", Span.mk 2 5 "Y"])) 0) ∧
      (∀ a ∈ winnerSpans (sortSpans (dedupSpans [Span.mk 1 3 "X", Span.mk 2 5 "Y"])) 0,
       ∀ b ∈ winnerSpans (sortSpans (dedupSpans [Span.mk 1 3 "X", Span.mk 2 5 "Y"])) 0,
         a.start < b.start → b.start < a.stop → False)) :=
  ⟨by decide, apply_spans_first_claimed_wins "abcdef" [Span.mk 1 3 "X", Span.mk 2 5 "Y"]
    (by decide)⟩

/-- C9: When two spans share a start offset but have different
ends, both survive deduplication (keys differ), the stable sort keeps
their input order, the first span in the input list is emitted and the
second is skipped entirely — regardless of which one is longer. -/
theorem apply_spans_same_start_first_wins (text : String) (s e1 e2 : Nat) (r1 r2 : String)
    (h1 : s < e1) (_h2 : s < e2) (hne : e1 ≠ e2) :
    applySpans text [Span.mk s e1 r1, Span.mk s e2 r2] =
      ⟨text.data.take s ++ r1.data ++ text.data.drop e1⟩ := by
  have hd : dedupSpans [Span.mk s e1 r1, Span.mk s e2 r2] =
      [Span.mk s e1 r1, Span.mk s e2 r2] := by
    simp [dedupSpans, dedupGo, Ne.symm hne]
  have hs : sortSpans [Span.mk s e1 r1, Span.mk s e2 r2] =
      [Span.mk s e1 r1, Span.mk s e2 r2] := by
    simp [sortSpans, insertByStart]
  rw [applySpans, if_neg (by simp), hd, hs]
  simp [applyGo, pySlice, h1]

theorem apply_spans_same_start_first_wins_witness :
    (0 < 3 ∧ 0 < 5 ∧ (3 : Nat) ≠ 5) ∧
    applySpans "abcdef" [Span.mk 0 3 "[A_1]", Span.mk 0 5 "[B_1]"] =
      ⟨"abcdef".data.take 0 ++ "[A_1]".data ++ "abcdef".data.drop 3⟩ :=
  ⟨by decide, apply_spans_same_start_first_wins "abcdef" 0 3 5 "[A_1]" "[B_1]"
    (by decide) (by decide) (by decide)⟩

/-- C2: `PlaceholderManager.get`: on a registry state arising
inside one document-processing call, a first call for a new
`(label, value)` key returns `"[label_n]"` where `n` is the label's
counter incremented by one (1-based, since counters start at 0), and
the counter increments exactly then; a call for an existing key leaves
the state untouched; repeated calls with the same key return the
identical string; and calls with two different values under the same
label return different strings. -/
theorem placeholder_registry_get_contract (m : PlaceholderManager) (label v v' : String)
    (hreach : Reachable m) :
    (lookupFind m.lookup (label, v) = none →
      (m.get label v).1 = mint label (getCounter m.counters label + 1) ∧
      getCounter (m.get label v).2.counters label = getCounter m.counters label + 1) ∧
    ((∃ p, lookupFind m.lookup (label, v) = some p) → (m.get label v).2 = m) ∧
    (m.get label v).2.get label v = ((m.get label v).1, (m.get label v).2) ∧
    (v ≠ v' → (m.get label v).1 ≠ ((m.get label v).2.get label v').1) := by
  refine ⟨?_, ?_, get_idem m label v, ?_⟩
  · intro hfind
    rw [get_of_not_found m label v hfind]
    exact ⟨rfl, getCounter_bump_self m.counters label⟩
  · rintro ⟨p, hp⟩
    rw [get_of_found m label v p hp]
  · intro hv
    have hreach1 : Reachable (m.get label v).2 := Reachable.step m label v hreach
    obtain ⟨i1, i2⟩ := hreach1.inv
    have hmem := get_mem_lookup m label v
    cases hfind2 : lookupFind (m.get label v).2.lookup (label, v') with
    | some p2 =>
      rw [get_of_found _ label v' p2 hfind2]
      have hmem2 := lookupFind_some_mem _ _ _ hfind2
      exact i2 ((label, v), (m.get label v).1) hmem ((label, v'), p2) hmem2 rfl
        (by simp [hv])
    | none =>
      rw [get_of_not_found _ label v' hfind2]
      obtain ⟨n, hn1, hn2, hn3⟩ := i1 _ hmem
      simp only at hn2 hn3
      rw [hn3]
      simp only
      intro hc
      have := mint_inj_num label n (getCounter (m.get label v).2.counters label + 1) hc
      omega

theorem placeholder_registry_get_contract_witness :
    Reachable PlaceholderManager.empty ∧
    ((lookupFind PlaceholderManager.empty.lookup ("PHONE", "555-123-4567") = none →
      (PlaceholderManager.empty.get "PHONE" "555-123-4567").1 =
        mint "PHONE" (getCounter PlaceholderManager.empty.counters "PHONE" + 1) ∧
      getCounter (PlaceholderManager.empty.get "PHONE" "555-123-4567").2.counters "PHONE" =
        getCounter PlaceholderManager.empty.counters "PHONE" + 1) ∧
    ((∃ p, lookupFind PlaceholderManager.empty.lookup ("PHONE", "555-123-4567") = some p) →
      (PlaceholderManager.empty.get "PHONE" "555-123-4567").2 = PlaceholderManager.empty) ∧
    (PlaceholderManager.empty.get "PHONE" "555-123-4567").2.get "PHONE" "555-123-4567" =
      ((PlaceholderManager.empty.get "PHONE" "555-123-4567").1,
       (PlaceholderManager.empty.get "PHONE" "555-123-4567").2) ∧
    ("555-123-4567" ≠ "555-999-0000" →
      (PlaceholderManager.empty.get "PHONE" "555-123-4567").1 ≠
        ((PlaceholderManager.empty.get "PHONE" "555-123-4567").2.get
          "PHONE" "555-999-0000").1)) :=
  ⟨Reachable.empty,
   placeholder_registry_get_contract PlaceholderManager.empty "PHONE"
     "555-123-4567" "555-999-0000" Reachable.empty⟩

/-- C3: The pattern detector runs its rules in the fixed
declaration order SSN, CREDIT_CARD, EMAIL, PHONE, DOB; a later rule's
candidate is skipped exactly when it is fully contained in an already
claimed region (a candidate that merely overlaps a claimed region, such
as `[3,7)` against claimed `[0,5)`, is not skipped); and on the input
`"123-45-6789"` the detector produces exactly one span, labelled SSN
over the whole string — no PHONE span. -/
theorem pattern_detector_order_and_containment :
    piiRegexes.map (fun lr => lr.1) = ["SSN", "CREDIT_CARD", "EMAIL", "PHONE", "DOB"] ∧
    (∀ (occupied : List (Nat × Nat)) (s e : Nat),
      (occupied.any (fun oc => s ≥ oc.1 && e ≤ oc.2)) = true ↔
        ∃ oc ∈ occupied, oc.1 ≤ s ∧ e ≤ oc.2) ∧
    ([((0 : Nat), (5 : Nat))].any (fun oc => 3 ≥ oc.1 && 7 ≤ oc.2)) = false ∧
    (gatherRegexSpans "123-45-6789" PlaceholderManager.empty).1 =
      [Span.mk 0 11 "[SSN_1]"] := by
  refine ⟨rfl, ?_, by decide, by decide⟩
  intro occupied s e
  simp only [List.any_eq_true, Bool.and_eq_true, decide_eq_true_eq, ge_iff_le]

/-- A capability reporting no entities. -/
def nerNone : Ner := fun _ => []

/-- NER capability for the XML tail/text linkage example: labels the
leading `"John"` of either text unit as a person. -/
def johnNer : Ner := fun s =>
  if s = "John" then [⟨"PER", 0, 4⟩]
  else if s = "John said hi" then [⟨"PER", 0, 4⟩]
  else []

/-- C4: `anonymize_document` creates a fresh registry per call and
is, given a deterministic entity-recognition capability, a pure
function of its inputs: two independent calls on the same content and
content type produce byte-identical anonymized output and the same
mapping items (with per-label ordinals minted from 1 in each fresh
registry). -/
theorem anonymize_document_deterministic (parseXml : String → Except Unit XmlElem)
    (parseJson : String → Except Unit Json) (ner : Ner) (content contentType : String) :
    ∀ r1 r2, anonymizeDocument parseXml parseJson ner content contentType = .ok r1 →
      anonymizeDocument parseXml parseJson ner content contentType = .ok r2 →
      r1.1 = r2.1 ∧ r1.2.items = r2.2.items := by
  intro r1 r2 h1 h2
  rw [h1] at h2
  injection h2 with h
  rw [h]
  exact ⟨rfl, rfl⟩

theorem anonymize_document_deterministic_witness :
    (anonymizeDocument (fun _ => .error ()) (fun _ => .error ()) nerNone
        "Call 555-123-4567" "text" =
      .ok ("Call [PHONE_1]",
        ⟨[("PHONE", 1)], [(("PHONE", "555-123-4567"), "[PHONE_1]")]⟩) ∧
     anonymizeDocument (fun _ => .error ()) (fun _ => .error ()) nerNone
        "Call 555-123-4567" "text" =
      .ok ("Call [PHONE_1]",
        ⟨[("PHONE", 1)], [(("PHONE", "555-123-4567"), "[PHONE_1]")]⟩)) ∧
    (("Call [PHONE_1]", (⟨[("PHONE", 1)],
        [(("PHONE", "555-123-4567"), "[PHONE_1]")]⟩ : PlaceholderManager)).1 =
      ("Call [PHONE_1]", (⟨[("PHONE", 1)],
        [(("PHONE", "555-123-4567"), "[PHONE_1]")]⟩ : PlaceholderManager)).1 ∧
     ("Call [PHONE_1]", (⟨[("PHONE", 1)],
        [(("PHONE", "555-123-4567"), "[PHONE_1]")]⟩ : PlaceholderManager)).2.items =
      ("Call [PHONE_1]", (⟨[("PHONE", 1)],
        [(("PHONE", "555-123-4567"), "[PHONE_1]")]⟩ : PlaceholderManager)).2.items) :=
  ⟨⟨rfl, rfl⟩,
   anonymize_document_deterministic (fun _ => .error ()) (fun _ => .error ()) nerNone
     "Call 555-123-4567" "text" _ _ rfl rfl⟩

/-- C5: The XML walker anonymizes a node's direct text and its tail
as two separate text units, threading the same shared registry: the
tail is processed in the registry state the text left behind, so the
same `(label, value)` seen in both resolves to the identical
placeholder (concretely: `<a>John</a>` with tail `"John said hi"` and a
capability labelling both leading `"John"`s maps both to
`"[PERSON_1]"`). -/
theorem xml_text_and_tail_share_registry (tag : String) (attrs : List (String × String))
    (t u : String) (m : PlaceholderManager) (ner : Ner) (ht : t ≠ "") (hu : u ≠ "") :
    anonymizeXmlElem (.mk tag attrs (some t) (some u) []) m ner =
      (XmlElem.mk tag attrs (some (anonymizeText t m ner).1)
        (some (anonymizeText u (anonymizeText t m ner).2 ner).1) [],
       (anonymizeText u (anonymizeText t m ner).2 ner).2) := by
  simp [anonymizeXmlElem, anonymizeXmlList, anonymizeTextField, ht, hu]

theorem xml_text_and_tail_share_registry_witness :
    ("John" ≠ "" ∧ "John said hi" ≠ "") ∧
    anonymizeXmlElem (.mk "a" [] (some "John") (some "John said hi") [])
        PlaceholderManager.empty johnNer =
      (XmlElem.mk "a" [] (some (anonymizeText "John" PlaceholderManager.empty johnNer).1)
        (some (anonymizeText "John said hi"
          (anonymizeText "John" PlaceholderManager.empty johnNer).2 johnNer).1) [],
       (anonymizeText "John said hi"
         (anonymizeText "John" PlaceholderManager.empty johnNer).2 johnNer).2) ∧
    (anonymizeText "John" PlaceholderManager.empty johnNer).1 = "[PERSON_1]" ∧
    (anonymizeText "John said hi"
        (anonymizeText "John" PlaceholderManager.empty johnNer).2 johnNer).1 =
      "[PERSON_1] said hi" :=
  ⟨⟨by decide, by decide⟩,
   xml_text_and_tail_share_registry "a" [] "John" "John said hi"
     PlaceholderManager.empty johnNer (by decide) (by decide),
   rfl, rfl⟩

theorem anonymizeJsonObj_keys (entries : List (String × Json)) :
    ∀ (m : PlaceholderManager) (ner : Ner),
      (anonymizeJsonObj entries m ner).1.map (fun e => e.1) =
        entries.map (fun e => e.1) := by
  induction entries with
  | nil => intro m ner; rfl
  | cons e rest ih =>
    intro m ner
    obtain ⟨k, v⟩ := e
    simp [anonymizeJsonObj, ih]

theorem anonymizeJsonList_length (vs : List Json) :
    ∀ (m : PlaceholderManager) (ner : Ner),
      (anonymizeJsonList vs m ner).1.length = vs.length := by
  induction vs with
  | nil => intro m ner; rfl
  | cons v rest ih =>
    intro m ner
    simp [anonymizeJsonList, ih]

/-- C6: The JSON walker rewrites only string values: numbers,
booleans and null pass through unchanged with the registry untouched,
arrays keep their length and objects their keys in order, and on
`{"a": "Call 555-123-4567", "b": 42}` with a capability reporting no
entities it returns `{"a": "Call [PHONE_1]", "b": 42}` with key `b`'s
value and type untouched. -/
theorem json_walker_rewrites_only_strings :
    (∀ (n : Int) (m : PlaceholderManager) (ner : Ner),
      anonymizeJsonValue (.num n) m ner = (.num n, m)) ∧
    (∀ (b : Bool) (m : PlaceholderManager) (ner : Ner),
      anonymizeJsonValue (.bool b) m ner = (.bool b, m)) ∧
    (∀ (m : PlaceholderManager) (ner : Ner),
      anonymizeJsonValue .null m ner = (.null, m)) ∧
    (∀ (entries : List (String × Json)) (m : PlaceholderManager) (ner : Ner),
      (anonymizeJsonObj entries m ner).1.map (fun e => e.1) =
        entries.map (fun e => e.1)) ∧
    (∀ (vs : List Json) (m : PlaceholderManager) (ner : Ner),
      (anonymizeJsonList vs m ner).1.length = vs.length) ∧
    (anonymizeJsonValue (.obj [("a", .str "Call 555-123-4567"), ("b", .num 42)])
        PlaceholderManager.empty nerNone).1 =
      .obj [("a", .str "Call [PHONE_1]"), ("b", .num 42)] :=
  ⟨fun _ _ _ => rfl, fun _ _ _ => rfl, fun _ _ => rfl,
   anonymizeJsonObj_keys, anonymizeJsonList_length, rfl⟩

/-- C8: With content type `"xml"` or `"json"` and unparseable
content, `anonymize_document` fails fast with a parse failure naming
the offending content type, and the call produces no output at all
(the error result carries neither anonymized text nor a registry). -/
theorem parse_failure_fails_fast (parseXml : String → Except Unit XmlElem)
    (parseJson : String → Except Unit Json) (ner : Ner) (content : String) :
    (parseXml content = .error () →
      anonymizeDocument parseXml parseJson ner content "xml" = .error ParseFailure.xml) ∧
    (parseJson content = .error () →
      anonymizeDocument parseXml parseJson ner content "json" = .error ParseFailure.json) := by
  constructor
  · intro h
    simp [anonymizeDocument, anonymizeXmlString, h]
  · intro h
    simp [anonymizeDocument, anonymizeJsonString, h]

theorem parse_failure_fails_fast_witness :
    ((fun _ : String => (Except.error () : Except Unit XmlElem)) "<open" = .error () ∧
     (fun _ : String => (Except.error () : Except Unit Json)) "\x7bbad" = .error ()) ∧
    anonymizeDocument (fun _ => .error ()) (fun _ => .error ()) nerNone "<open" "xml" =
      .error ParseFailure.xml ∧
    anonymizeDocument (fun _ => .error ()) (fun _ => .error ()) nerNone "\x7bbad" "json" =
      .error ParseFailure.json :=
  ⟨⟨rfl, rfl⟩,
   (parse_failure_fails_fast (fun _ => .error ()) (fun _ => .error ()) nerNone "<open").1 rfl,
   (parse_failure_fails_fast (fun _ => .error ()) (fun _ => .error ()) nerNone "\x7bbad").2 rfl⟩

/-- C10: For content type `"json"` the document call re-serializes
the parsed value with `json.dumps(..., indent=4)`, so the returned
string reflects the walked value's shape, not the input bytes: even
with zero detected spans the output formatting generally differs from
the input (witness: `{"a": 1}` comes back as a 4-space-indented
multi-line string while the walked value is unchanged). -/
theorem json_reserialized_with_indent (parseXml : String → Except Unit XmlElem)
    (parseJson : String → Except Unit Json) (ner : Ner) (content : String) (v : Json)
    (h : parseJson content = .ok v) :
    anonymizeDocument parseXml parseJson ner content "json" =
      .ok (dumpsIndent4 (anonymizeJsonValue v PlaceholderManager.empty ner).1,
           (anonymizeJsonValue v PlaceholderManager.empty ner).2) := by
  simp [anonymizeDocument, anonymizeJsonString, h]

theorem json_reserialized_with_indent_witness :
    ((fun s : String =>
        if s = "\x7b\"a\": 1\x7d" then Except.ok (Json.obj [("a", Json.num 1)])
        else Except.error ()) "\x7b\"a\": 1\x7d" = .ok (Json.obj [("a", Json.num 1)])) ∧
    anonymizeDocument (fun _ => .error ())
        (fun s =>
          if s = "\x7b\"a\": 1\x7d" then Except.ok (Json.obj [("a", Json.num 1)])
          else Except.error ())
        nerNone "\x7b\"a\": 1\x7d" "json" =
      .ok (dumpsIndent4
            (anonymizeJsonValue (Json.obj [("a", Json.num 1)])
              PlaceholderManager.empty nerNone).1,
           (anonymizeJsonValue (Json.obj [("a", Json.num 1)])
             PlaceholderManager.empty nerNone).2) ∧
    (anonymizeJsonValue (Json.obj [("a", Json.num 1)])
        PlaceholderManager.empty nerNone).1 = Json.obj [("a", Json.num 1)] ∧
    dumpsIndent4 (Json.obj [("a", Json.num 1)]) = "\x7b\n    \"a\": 1\n\x7d" ∧
    ("\x7b\n    \"a\": 1\n\x7d" : String) ≠ "\x7b\"a\": 1\x7d" :=
  ⟨rfl,
   json_reserialized_with_indent (fun _ => .error ())
     (fun s =>
       if s = "\x7b\"a\": 1\x7d" then Except.ok (Json.obj [("a", Json.num 1)])
       else Except.error ())
     nerNone "\x7b\"a\": 1\x7d" (Json.obj [("a", Json.num 1)]) rfl,
   rfl, rfl, by decide⟩

/-! ### Facts about the matcher needed for the PHONE digit filter -/

theorem mem_of_head_eq_some {α : Type} {l : List α} {a : α} (h : l.head? = some a) :
    a ∈ l := by
  cases l with
  | nil => simp at h
  | cons x xs =>
    simp only [List.head?] at h
    injection h with h
    subst h
    exact List.mem_cons_self _ _

theorem mrun_le (t : List Char) :
    ∀ (fuel : Nat) (re : RE) (i j : Nat), j ∈ mrun t fuel re i → i ≤ j := by
  intro fuel
  induction fuel with
  | zero => intro re i j h; simp [mrun] at h
  | succ fuel ih =>
    intro re i j h
    cases re with
    | eps =>
      simp only [mrun, List.mem_singleton] at h
      omega
    | cls p =>
      simp only [mrun] at h
      cases hc : t[i]? with
      | some c =>
        rw [hc] at h
        by_cases hp : p c
        · simp [hp] at h
          omega
        · simp [hp] at h
      | none =>
        rw [hc] at h
        simp at h
    | seq a b =>
      simp only [mrun, List.mem_flatMap] at h
      obtain ⟨k, hk, hj⟩ := h
      exact le_trans (ih a i k hk) (ih b k j hj)
    | alt a b =>
      simp only [mrun, List.mem_append] at h
      rcases h with h | h
      · exact ih a i j h
      · exact ih b i j h
    | nlk r =>
      simp only [mrun] at h
      split at h <;> simp at h
      omega
    | wb =>
      simp only [mrun] at h
      split at h <;> simp at h
      omega
    | rep r lo hi =>
      rcases lo with _ | lo'
      · rcases hi with _ | hi'
        · simp only [mrun, List.mem_append, List.mem_flatMap, List.mem_filter,
            List.mem_singleton, decide_eq_true_eq] at h
          rcases h with ⟨k, ⟨hk, hik⟩, hj⟩ | rfl
          · have := ih _ k j hj
            omega
          · omega
        · rcases hi' with _ | k
          · simp only [mrun, List.mem_singleton] at h
            omega
          · simp only [mrun, List.mem_append, List.mem_flatMap, List.mem_filter,
              List.mem_singleton, decide_eq_true_eq] at h
            rcases h with ⟨k2, ⟨hk, hik⟩, hj⟩ | rfl
            · have := ih _ k2 j hj
              omega
            · omega
      · rcases hi with _ | hi'
        · simp only [mrun, List.mem_flatMap, List.mem_filter, decide_eq_true_eq] at h
          obtain ⟨k, ⟨hk, hik⟩, hj⟩ := h
          have := ih _ k j hj
          omega
        · rcases hi' with _ | k
          · simp [mrun] at h
          · simp only [mrun, List.mem_flatMap, List.mem_filter, decide_eq_true_eq] at h
            obtain ⟨k2, ⟨hk, hik⟩, hj⟩ := h
            have := ih _ k2 j hj
            omega

/-- Patterns that can never match the empty string: every path consumes
at least one character. -/
def consumes : RE → Bool
  | .eps => false
  | .cls _ => true
  | .wb => false
  | .nlk _ => false
  | .seq a b => consumes a || consumes b
  | .alt a b => consumes a && consumes b
  | .rep r lo _ => decide (1 ≤ lo) && consumes r

theorem mrun_lt_of_consumes (t : List Char) :
    ∀ (fuel : Nat) (re : RE) (i j : Nat), consumes re = true → j ∈ mrun t fuel re i → i < j := by
  intro fuel
  induction fuel with
  | zero => intro re i j _ h; simp [mrun] at h
  | succ fuel ih =>
    intro re i j hc h
    cases re with
    | eps => simp [consumes] at hc
    | cls p =>
      simp only [mrun] at h
      cases hcl : t[i]? with
      | some c =>
        rw [hcl] at h
        by_cases hp : p c
        · simp [hp] at h
          omega
        · simp [hp] at h
      | none =>
        rw [hcl] at h
        simp at h
    | seq a b =>
      simp only [consumes, Bool.or_eq_true] at hc
      simp only [mrun, List.mem_flatMap] at h
      obtain ⟨k, hk, hj⟩ := h
      rcases hc with hc | hc
      · have h1 := ih a i k hc hk
        have h2 := mrun_le t fuel b k j hj
        omega
      · have h1 := mrun_le t fuel a i k hk
        have h2 := ih b k j hc hj
        omega
    | alt a b =>
      simp only [consumes, Bool.and_eq_true] at hc
      simp only [mrun, List.mem_append] at h
      rcases h with h | h
      · exact ih a i j hc.1 h
      · exact ih b i j hc.2 h
    | nlk r => simp [consumes] at hc
    | wb => simp [consumes] at hc
    | rep r lo hi =>
      simp only [consumes, Bool.and_eq_true, decide_eq_true_eq] at hc
      rcases lo with _ | lo'
      · omega
      · rcases hi with _ | hi'
        · simp only [mrun, List.mem_flatMap, List.mem_filter, decide_eq_true_eq] at h
          obtain ⟨k, ⟨hk, hik⟩, hj⟩ := h
          have := mrun_le t fuel _ k j hj
          omega
        · rcases hi' with _ | k
          · simp [mrun] at h
          · simp only [mrun, List.mem_flatMap, List.mem_filter, decide_eq_true_eq] at h
            obtain ⟨k2, ⟨hk, hik⟩, hj⟩ := h
            have := mrun_le t fuel _ k2 j hj
            omega

theorem reMatch_lt (t : List Char) (re : RE) (i e : Nat) (hc : consumes re = true)
    (h : reMatch t re i = some e) : i < e :=
  mrun_lt_of_consumes t _ re i e hc (mem_of_head_eq_some h)

theorem finditerGo_start_ge (t : List Char) (re : RE) :
    ∀ (fuel pos : Nat) (p : Nat × Nat), p ∈ finditerGo t re pos fuel → pos ≤ p.1 := by
  intro fuel
  induction fuel with
  | zero => intro pos p hp; simp [finditerGo] at hp
  | succ fuel ih =>
    intro pos p hp
    simp only [finditerGo] at hp
    by_cases hlen : pos > t.length
    · rw [if_pos hlen] at hp
      simp at hp
    · rw [if_neg hlen] at hp
      cases hm : reMatch t re pos with
      | some e =>
        rw [hm] at hp
        dsimp only at hp
        by_cases he : pos < e
        · rw [if_pos he] at hp
          rcases List.mem_cons.mp hp with rfl | hp
          · simp
          · have := ih e p hp
            omega
        · rw [if_neg he] at hp
          rcases List.mem_cons.mp hp with rfl | hp
          · simp
          · have := ih (pos + 1) p hp
            omega
      | none =>
        rw [hm] at hp
        have := ih (pos + 1) p hp
        omega

theorem finditerGo_lt (t : List Char) (re : RE) (hc : consumes re = true) :
    ∀ (fuel pos : Nat) (p : Nat × Nat), p ∈ finditerGo t re pos fuel → p.1 < p.2 := by
  intro fuel
  induction fuel with
  | zero => intro pos p hp; simp [finditerGo] at hp
  | succ fuel ih =>
    intro pos p hp
    simp only [finditerGo] at hp
    by_cases hlen : pos > t.length
    · rw [if_pos hlen] at hp
      simp at hp
    · rw [if_neg hlen] at hp
      cases hm : reMatch t re pos with
      | some e =>
        have hlt := reMatch_lt t re pos e hc hm
        rw [hm] at hp
        dsimp only at hp
        rw [if_pos hlt] at hp
        rcases List.mem_cons.mp hp with rfl | hp
        · exact hlt
        · exact ih e p hp
      | none =>
        rw [hm] at hp
        exact ih (pos + 1) p hp

theorem finditerGo_pairwise (t : List Char) (re : RE) (hc : consumes re = true) :
    ∀ (fuel pos : Nat),
      List.Pairwise (fun a b : Nat × Nat => a.2 ≤ b.1) (finditerGo t re pos fuel) := by
  intro fuel
  induction fuel with
  | zero => intro pos; simp [finditerGo]
  | succ fuel ih =>
    intro pos
    simp only [finditerGo]
    by_cases hlen : pos > t.length
    · rw [if_pos hlen]
      exact List.Pairwise.nil
    · rw [if_neg hlen]
      cases hm : reMatch t re pos with
      | some e =>
        have hlt := reMatch_lt t re pos e hc hm
        dsimp only
        rw [if_pos hlt]
        refine List.Pairwise.cons ?_ (ih e)
        intro p hp
        exact finditerGo_start_ge t re fuel e p hp
      | none => exact ih (pos + 1)

theorem phone_consumes : consumes phoneRE = true := by decide

theorem get_is_mint (m : PlaceholderManager) (label value : String) (h : Reachable m) :
    ∃ n, 1 ≤ n ∧ (m.get label value).1 = mint label n := by
  have h2 := (Reachable.step m label value h).inv
  obtain ⟨n, hn1, _, hn3⟩ := h2.1 _ (get_mem_lookup m label value)
  exact ⟨n, hn1, hn3⟩

theorem not_phone_prefix_mint (label : String) (n : Nat)
    (h : ∀ c, label.data.head? = some c → c ≠ 'P') :
    ¬("[PHONE_".data <+: (mint label n).data) := by
  intro hp
  have hd : (mint label n).data =
      '[' :: (label.data ++ ('_' :: ((Nat.repr n).data ++ [']']))) := by
    simp [mint, String.data_append]
  rw [hd] at hp
  have hp2 := (List.cons_prefix_cons.mp hp).2
  cases hlab : label.data with
  | nil =>
    rw [hlab] at hp2
    simp only [List.nil_append] at hp2
    have := (List.cons_prefix_cons.mp hp2).1
    simp at this
  | cons c cs =>
    rw [hlab] at hp2
    simp only [List.cons_append] at hp2
    have hc := (List.cons_prefix_cons.mp hp2).1
    exact h c (by rw [hlab]; rfl) hc.symm

theorem processMatches_mono (text label : String) :
    ∀ (ms : List (Nat × Nat)) (spans : List Span) (occ : List (Nat × Nat))
      (m : PlaceholderManager) (x : Span), x ∈ spans →
      x ∈ (processMatches text label ms spans occ m).1 := by
  intro ms
  induction ms with
  | nil => intro spans occ m x hx; exact hx
  | cons me rest ih =>
    intro spans occ m x hx
    obtain ⟨s, e⟩ := me
    rw [processMatches]
    split
    · exact ih _ _ _ x hx
    · split
      · exact ih _ _ _ x hx
      · exact ih _ _ _ x (List.mem_append_left _ hx)

theorem processMatches_reachable (text label : String) :
    ∀ (ms : List (Nat × Nat)) (spans : List Span) (occ : List (Nat × Nat))
      (m : PlaceholderManager), Reachable m →
      Reachable (processMatches text label ms spans occ m).2.2 := by
  intro ms
  induction ms with
  | nil => intro spans occ m hm; exact hm
  | cons me rest ih =>
    intro spans occ m hm
    obtain ⟨s, e⟩ := me
    rw [processMatches]
    split
    · exact ih _ _ _ hm
    · split
      · exact ih _ _ _ hm
      · exact ih _ _ _ (Reachable.step m label _ hm)

theorem processMatches_emits (text label : String) :
    ∀ (ms : List (Nat × Nat)) (spans : List Span) (occ : List (Nat × Nat))
      (m : PlaceholderManager) (s e : Nat),
      (s, e) ∈ ms → s < e →
      List.Pairwise (fun a b : Nat × Nat => a.2 ≤ b.1) ms →
      (∀ oc ∈ occ, ¬(oc.1 ≤ s ∧ e ≤ oc.2)) →
      (label = "PHONE" → digitCount ⟨pySlice text.data s e⟩ < 12) →
      ∃ p, Span.mk s e p ∈ (processMatches text label ms spans occ m).1 := by
  intro ms
  induction ms with
  | nil => intro spans occ m s e hmem; simp at hmem
  | cons me rest ih =>
    intro spans occ m s e hmem hse hpw hocc hdig
    obtain ⟨s0, e0⟩ := me
    have hpwrest := (List.pairwise_cons.mp hpw).2
    rcases List.mem_cons.mp hmem with heq | hmem'
    · injection heq with h1 h2
      subst h1
      subst h2
      have hany : (occ.any (fun oc => s ≥ oc.1 && e ≤ oc.2)) = false := by
        rw [List.any_eq_false]
        intro oc hoc
        have := hocc oc hoc
        simp only [Bool.and_eq_true, decide_eq_true_eq, ge_iff_le]
        tauto
      have hfil : (label = "PHONE" && digitCount ⟨pySlice text.data s e⟩ ≥ 12) = false := by
        by_cases hl : label = "PHONE"
        · have := hdig hl
          simp [hl]
          omega
        · simp [hl]
      rw [processMatches, if_neg (by rw [hany]; simp), if_neg (by rw [hfil]; simp)]
      exact ⟨(m.get label ⟨pySlice text.data s e⟩).1,
        processMatches_mono text label rest _ _ _ _
          (List.mem_append_right _ (List.mem_singleton.mpr rfl))⟩
    · have hrel : e0 ≤ s := (List.pairwise_cons.mp hpw).1 (s, e) hmem'
      rw [processMatches]
      split
      · exact ih _ _ _ s e hmem' hse hpwrest hocc hdig
      · split
        · exact ih _ _ _ s e hmem' hse hpwrest hocc hdig
        · refine ih _ _ _ s e hmem' hse hpwrest ?_ hdig
          intro oc hoc
          rcases List.mem_append.mp hoc with hoc | hoc
          · exact hocc oc hoc
          · rw [List.mem_singleton.mp hoc]
            intro hcon
            omega

/-- Spans whose replacement is a PHONE placeholder cover a matched
value of fewer than 12 digits. -/
def PhoneSpanOk (text : String) (sp : Span) : Prop :=
  ("[PHONE_".data <+: sp.repl.data) →
    digitCount ⟨pySlice text.data sp.start sp.stop⟩ < 12

theorem processMatches_phone_ok (text label : String)
    (hlab : label = "PHONE" ∨ (∀ c, label.data.head? = some c → c ≠ 'P')) :
    ∀ (ms : List (Nat × Nat)) (spans : List Span) (occ : List (Nat × Nat))
      (m : PlaceholderManager), Reachable m →
      (∀ sp ∈ spans, PhoneSpanOk text sp) →
      ∀ sp ∈ (processMatches text label ms spans occ m).1, PhoneSpanOk text sp := by
  intro ms
  induction ms with
  | nil => intro spans occ m _ hspans sp hsp; exact hspans sp hsp
  | cons me rest ih =>
    intro spans occ m hm hspans sp hsp
    obtain ⟨s, e⟩ := me
    rw [processMatches] at hsp
    split at hsp
    · exact ih _ _ _ hm hspans sp hsp
    · rename_i hfil0
      split at hsp
      · exact ih _ _ _ hm hspans sp hsp
      · rename_i hfil
        refine ih _ _ _ (Reachable.step m label _ hm) ?_ sp hsp
        intro x hx
        rcases List.mem_append.mp hx with hx | hx
        · exact hspans x hx
        · rw [List.mem_singleton.mp hx]
          rcases hlab with hl | hl
          · intro _
            dsimp only
            rw [hl] at hfil
            simp only [Bool.and_eq_true, decide_eq_true_eq, ge_iff_le] at hfil
            push_neg at hfil
            have := hfil trivial
            omega
          · obtain ⟨n, _, hmint⟩ := get_is_mint m label ⟨pySlice text.data s e⟩ hm
            intro hpre
            exact absurd (hmint ▸ hpre) (not_phone_prefix_mint label n hl)

theorem gatherRules_phone_ok (text : String) :
    ∀ (rules : List (String × RE)),
      (∀ lr ∈ rules, lr.1 = "PHONE" ∨ (∀ c, lr.1.data.head? = some c → c ≠ 'P')) →
      ∀ (spans : List Span) (occ : List (Nat × Nat)) (m : PlaceholderManager),
        Reachable m → (∀ sp ∈ spans, PhoneSpanOk text sp) →
        ∀ sp ∈ (gatherRules text rules spans occ m).1, PhoneSpanOk text sp := by
  intro rules
  induction rules with
  | nil => intro _ spans occ m _ hspans sp hsp; exact hspans sp hsp
  | cons rule rest ih =>
    intro hrules spans occ m hm hspans sp hsp
    obtain ⟨label, re⟩ := rule
    rw [gatherRules] at hsp
    refine ih (fun lr hlr => hrules lr (List.mem_cons_of_mem _ hlr)) _ _ _
      (processMatches_reachable text label _ _ _ _ hm) ?_ sp hsp
    exact processMatches_phone_ok text label
      (hrules (label, re) (List.mem_cons_self _ _)) _ _ _ _ hm hspans

/-- C7: In the pattern detector every PHONE span in the output
covers a matched value of fewer than 12 digits (a candidate with 12 or
more digits produces no span), and every PHONE candidate of fewer than
12 digits that is not contained in a region claimed before the PHONE
rule's turn does produce a span. -/
theorem phone_digit_threshold (text : String) (m : PlaceholderManager)
    (hm : Reachable m) :
    (∀ sp ∈ (gatherRegexSpans text m).1, PhoneSpanOk text sp) ∧
    (∀ (spans : List Span) (occ : List (Nat × Nat)) (m2 : PlaceholderManager) (s e : Nat),
      (s, e) ∈ finditer text.data phoneRE →
      digitCount ⟨pySlice text.data s e⟩ < 12 →
      (∀ oc ∈ occ, ¬(oc.1 ≤ s ∧ e ≤ oc.2)) →
      ∃ p, Span.mk s e p ∈
        (processMatches text "PHONE" (finditer text.data phoneRE) spans occ m2).1) := by
  constructor
  · apply gatherRules_phone_ok text piiRegexes ?_ [] [] m hm (by intro sp hsp; simp at hsp)
    intro lr hlr
    simp only [piiRegexes, List.mem_cons, List.not_mem_nil, or_false] at hlr
    rcases hlr with rfl | rfl | rfl | rfl | rfl
    · right
      intro c hc
      have h2 : some 'S' = some c := hc
      injection h2 with h2
      subst h2
      decide
    · right
      intro c hc
      have h2 : some 'C' = some c := hc
      injection h2 with h2
      subst h2
      decide
    · right
      intro c hc
      have h2 : some 'E' = some c := hc
      injection h2 with h2
      subst h2
      decide
    · left
      rfl
    · right
      intro c hc
      have h2 : some 'D' = some c := hc
      injection h2 with h2
      subst h2
      decide
  · intro spans occ m2 s e hmem hdig hocc
    refine processMatches_emits text "PHONE" _ spans occ m2 s e hmem ?_ ?_ hocc (fun _ => hdig)
    · exact finditerGo_lt text.data phoneRE phone_consumes _ 0 (s, e) hmem
    · exact finditerGo_pairwise text.data phoneRE phone_consumes _ 0

theorem phone_digit_threshold_witness :
    Reachable PlaceholderManager.empty ∧
    ((5, 17) ∈ finditer "Call 555-123-4567".data phoneRE ∧
     digitCount ⟨pySlice "Call 555-123-4567".data 5 17⟩ < 12 ∧
     (∀ oc ∈ ([] : List (Nat × Nat)), ¬(oc.1 ≤ 5 ∧ 17 ≤ oc.2))) ∧
    (∀ sp ∈ (gatherRegexSpans "Call 555-123-4567" PlaceholderManager.empty).1,
      PhoneSpanOk "Call 555-123-4567" sp) ∧
    (∃ p, Span.mk 5 17 p ∈
      (processMatches "Call 555-123-4567" "PHONE"
        (finditer "Call 555-123-4567".data phoneRE) [] [] PlaceholderManager.empty).1) :=
  ⟨Reachable.empty,
   ⟨by decide, by decide, by simp⟩,
   (phone_digit_threshold "Call 555-123-4567" PlaceholderManager.empty Reachable.empty).1,
   (phone_digit_threshold "Call 555-123-4567" PlaceholderManager.empty Reachable.empty).2
     [] [] PlaceholderManager.empty 5 17 (by decide) (by decide) (by simp)⟩

end PiiAnon
